import Mathlib

/-!
Verification of the clearform-upscaler batch pipeline.

Shallow embedding of the Python sources:
* `src/upscale/adapters.py`   — upscaling strategies (output dimensions)
* `src/upscale/processing.py` — size-targeting JPEG encoder, per-item processor,
                                report rendering
* `src/app.py`                — batch runner counters, unique output naming

Python floats are modelled as `ℚ`, Python ints as `ℤ`/`ℕ`, byte strings as
`List ℕ`.  Image decoding / Pillow encoding are environment oracles: the code
under verification only observes dimensions, encoded sizes, and raised
`MemoryError`s, so those observations parametrise the embedding.
-/

/-! ### Adapters (src/upscale/adapters.py)

`PillowAdapter.upscale` computes `max(1, int(image.width * scale))` for each
axis; `int` on a Python float truncates toward zero. -/

/-- Python `int(x)` on a real value: truncation toward zero. -/
def pyInt (x : ℚ) : ℤ := if 0 ≤ x then ⌊x⌋ else -⌊-x⌋

/-- Output dimensions of `PillowAdapter.upscale` (adapters.py lines 29-32):
`width = max(1, int(image.width * scale))`, `height` likewise. The resize call
itself produces an image of exactly these dimensions. -/
def pillowUpscaleDims (w h : ℕ) (scale : ℚ) : ℕ × ℕ :=
  (max 1 (pyInt ((w : ℚ) * scale)).toNat, max 1 (pyInt ((h : ℚ) * scale)).toNat)

/-- Output dimensions of `AIFSRCNNAdapter.upscale` (adapters.py lines 58-70):
the FSRCNN x4 forward pass produces a 4x image, then a secondary resize to
`(max(1, int(w*scale)), max(1, int(h*scale)))` runs whenever those differ. -/
def aiUpscaleDims (w h : ℕ) (scale : ℚ) : ℕ × ℕ :=
  let modelOut : ℕ × ℕ := (4 * w, 4 * h)
  let desired : ℕ × ℕ :=
    (max 1 (pyInt ((w : ℚ) * scale)).toNat, max 1 (pyInt ((h : ℚ) * scale)).toNat)
  if modelOut.1 ≠ desired.1 ∨ modelOut.2 ≠ desired.2 then desired else modelOut

/-- Dimensions as the spec sentence words them: `round(input_width × scaleFactor)`
by `round(input_height × scaleFactor)`, each clamped to a minimum of 1.
Stated from the spec for comparison with the source definitions. -/
def specRoundDims (w h : ℕ) (scale : ℚ) : ℕ × ℕ :=
  (max 1 (round ((w : ℚ) * scale)).toNat, max 1 (round ((h : ℚ) * scale)).toNat)

/-! ### Report rendering (src/upscale/processing.py, ProcessReport) -/

/-- One per-item report, mirroring the `ProcessReport` dataclass
(processing.py lines 23-34). `quality` is a Python int, `size_mb` a float. -/
structure ProcessReport where
  source_name : String
  output_name : String
  status : String
  src_w : Option ℕ
  src_h : Option ℕ
  out_w : Option ℕ
  out_h : Option ℕ
  quality : Option ℤ
  size_mb : Option ℚ
  notes : String
deriving DecidableEq

/-- Python `str(x or "")` for an optional int field: `None` and `0` are both
falsy, so both render as the empty string. -/
def pyOrEmptyNat : Option ℕ → String
  | none => ""
  | some n => if n = 0 then "" else toString n

/-- Python `str(x or "")` for an optional Python int that may be negative. -/
def pyOrEmptyInt : Option ℤ → String
  | none => ""
  | some i => if i = 0 then "" else toString i

/-- Python `str(x or "")` for an optional float field: `None` and `0.0` render
as the empty string.  (The decimal rendering of a non-zero float is abstracted
as the rational's `toString`; no claim depends on it.) -/
def pyOrEmptyRat : Option ℚ → String
  | none => ""
  | some q => if q = 0 then "" else toString q

/-- `ProcessReport.as_tsv` (processing.py lines 36-50): joins the ten fields
with tabs, rendering each optional numeric field as `str(field or "")`. -/
def ProcessReport.as_tsv (r : ProcessReport) : String :=
  String.intercalate "\t"
    [r.source_name, r.output_name, r.status,
     pyOrEmptyNat r.src_w, pyOrEmptyNat r.src_h,
     pyOrEmptyNat r.out_w, pyOrEmptyNat r.out_h,
     pyOrEmptyInt r.quality, pyOrEmptyRat r.size_mb,
     r.notes]

/-! ### Theorems -/

/-- **C1** (counterexample). The spec says output dimensions are
`round(w × scale)`; the code truncates (`int(...)`).  At width = height = 10 and
scale = 1.49 (≥ 1), the code yields 14×14 while `round(14.9) = 15`. -/
theorem pillow_dims_ne_spec_round :
    (1 : ℚ) ≤ 149 / 100 ∧
    pillowUpscaleDims 10 10 (149 / 100) = (14, 14) ∧
    specRoundDims 10 10 (149 / 100) = (15, 15) ∧
    pillowUpscaleDims 10 10 (149 / 100) ≠ specRoundDims 10 10 (149 / 100) := by
  have hfloor : ⌊(10 : ℚ) * (149 / 100)⌋ = 14 := by
    rw [show (10 : ℚ) * (149 / 100) = 149 / 10 by norm_num]
    rw [Int.floor_eq_iff]
    norm_num
  have hround : round ((10 : ℚ) * (149 / 100)) = 15 := by
    rw [round_eq, show (10 : ℚ) * (149 / 100) + 1 / 2 = 77 / 5 by norm_num]
    rw [Int.floor_eq_iff]
    norm_num
  have hp : pillowUpscaleDims 10 10 (149 / 100) = (14, 14) := by
    simp only [pillowUpscaleDims, pyInt, if_pos (by norm_num : (0 : ℚ) ≤ 10 * (149 / 100)),
      Nat.cast_ofNat, hfloor]
    rfl
  have hs : specRoundDims 10 10 (149 / 100) = (15, 15) := by
    simp only [specRoundDims, Nat.cast_ofNat, hround]
    rfl
  refine ⟨by norm_num, hp, hs, ?_⟩
  rw [hp, hs]
  decide

/-- **C1** (amended): for every scale factor ≥ 1, both strategies return an
image whose pixel dimensions equal `⌊w × scale⌋ × ⌊h × scale⌋` (truncation, as
Python `int`), each clamped to a minimum of 1; in particular the learned-model
adapter's secondary resize lands on exactly the deterministic adapter's
dimensions. -/
theorem upscale_dims_eq_floor (w h : ℕ) (scale : ℚ) (h1 : 1 ≤ scale) :
    aiUpscaleDims w h scale = pillowUpscaleDims w h scale ∧
    pillowUpscaleDims w h scale =
      (max 1 (⌊(w : ℚ) * scale⌋).toNat, max 1 (⌊(h : ℚ) * scale⌋).toNat) := by
  have hs : (0 : ℚ) ≤ scale := le_trans zero_le_one h1
  have hw : (0 : ℚ) ≤ (w : ℚ) * scale := mul_nonneg (Nat.cast_nonneg w) hs
  have hh : (0 : ℚ) ≤ (h : ℚ) * scale := mul_nonneg (Nat.cast_nonneg h) hs
  have pw : pyInt ((w : ℚ) * scale) = ⌊(w : ℚ) * scale⌋ := if_pos hw
  have ph : pyInt ((h : ℚ) * scale) = ⌊(h : ℚ) * scale⌋ := if_pos hh
  constructor
  · unfold aiUpscaleDims pillowUpscaleDims
    dsimp only
    split
    · rfl
    · rename_i hcond
      push_neg at hcond
      exact Prod.ext hcond.1 hcond.2
  · unfold pillowUpscaleDims
    rw [pw, ph]

/-- Witness for `upscale_dims_eq_floor` at width 3, height 5, scale 4. -/
theorem upscale_dims_eq_floor_witness :
    aiUpscaleDims 3 5 4 = pillowUpscaleDims 3 5 4 ∧
    pillowUpscaleDims 3 5 4 =
      (max 1 (⌊(3 : ℚ) * 4⌋).toNat, max 1 (⌊(5 : ℚ) * 4⌋).toNat) :=
  upscale_dims_eq_floor 3 5 4 (by norm_num)

/-- **C9**: in `ProcessReport.as_tsv` a numeric field holding zero renders as
the empty string, exactly as an absent (`None`) field does, so the two are
indistinguishable in the TSV line.  This holds independently for each of the
six numeric columns. -/
theorem as_tsv_zero_eq_absent (r : ProcessReport) :
    ({ r with src_w := some 0 } : ProcessReport).as_tsv =
      ({ r with src_w := none } : ProcessReport).as_tsv ∧
    ({ r with src_h := some 0 } : ProcessReport).as_tsv =
      ({ r with src_h := none } : ProcessReport).as_tsv ∧
    ({ r with out_w := some 0 } : ProcessReport).as_tsv =
      ({ r with out_w := none } : ProcessReport).as_tsv ∧
    ({ r with out_h := some 0 } : ProcessReport).as_tsv =
      ({ r with out_h := none } : ProcessReport).as_tsv ∧
    ({ r with quality := some 0 } : ProcessReport).as_tsv =
      ({ r with quality := none } : ProcessReport).as_tsv ∧
    ({ r with size_mb := some 0 } : ProcessReport).as_tsv =
      ({ r with size_mb := none } : ProcessReport).as_tsv := by
  refine ⟨?_, ?_, ?_, ?_, ?_, ?_⟩ <;> rfl

/-! ### Size-targeting encoder (src/upscale/processing.py, lines 66-110)

`_encode_jpeg_target_bytes` binary-searches an integer JPEG quality level in
`[70, 98]`.  The Pillow save call is the environment: `sz q` is the byte length
of the encoding produced at quality `q` (deterministic for a fixed image and
metadata), and an encoding is identified by its quality level.  Python ints are
`ℤ` (`(low + high) // 2` is floor division, which is `Int` `/` here since the
divisor is positive).  The loop's recursion is modelled with a fuel argument
equal to the initial interval size 29, which the lemmas show is never
exhausted, so the fuel branch is unreachable from the entry point. -/

/-- `abs(size - target_bytes)` (processing.py line 95). -/
def natGap (size target : ℕ) : ℕ := ((size : ℤ) - (target : ℤ)).natAbs

/-- `size < target_bytes * (1 - tolerance)` (processing.py line 101). -/
def belowBand (target : ℕ) (tol : ℚ) (size : ℕ) : Prop :=
  (size : ℚ) < (target : ℚ) * (1 - tol)

/-- `size > target_bytes * (1 + tolerance)` (processing.py line 103). -/
def aboveBand (target : ℕ) (tol : ℚ) (size : ℕ) : Prop :=
  (target : ℚ) * (1 + tol) < (size : ℚ)

instance (target : ℕ) (tol : ℚ) (size : ℕ) : Decidable (belowBand target tol size) := by
  unfold belowBand; infer_instance

instance (target : ℕ) (tol : ℚ) (size : ℕ) : Decidable (aboveBand target tol size) := by
  unfold aboveBand; infer_instance

/-- The probe landed inside the relative tolerance band: neither of the two
`continue searching` conditions of the loop fired (processing.py lines 101-106). -/
def inTolerance (target : ℕ) (tol : ℚ) (size : ℕ) : Prop :=
  ¬ belowBand target tol size ∧ ¬ aboveBand target tol size

instance (target : ℕ) (tol : ℚ) (size : ℕ) : Decidable (inTolerance target tol size) := by
  unfold inTolerance; infer_instance

/-- The `while low <= high` loop of `_encode_jpeg_target_bytes`
(processing.py lines 78-110).  State: `low`, `high`, and the best-seen probe
`best = some (best_q, best_gap)` (with `best = none` for the initial
`best_data is None`; the code sets `best_data`, `best_q`, `best_gap` together,
so one option models the triple).  Returns the function's result — `some q`
for a returned quality, `none` for the `RuntimeError` branch — paired with the
list of probed quality levels in probe order. -/
def encodeRunF (sz : ℤ → ℕ) (target : ℕ) (tol : ℚ) :
    ℕ → ℤ → ℤ → Option (ℤ × ℕ) → Option ℤ × List ℤ
  | 0, _, _, best => (best.map Prod.fst, [])
  | fuel + 1, low, high, best =>
    if low ≤ high then
      let q := (low + high) / 2
      let size := sz q
      let gap := natGap size target
      let best' : Option (ℤ × ℕ) :=
        match best with
        | none => some (q, gap)
        | some (bq, bg) => if gap < bg then some (q, gap) else some (bq, bg)
      if belowBand target tol size then
        let r := encodeRunF sz target tol fuel (q + 1) high best'
        (r.1, q :: r.2)
      else if aboveBand target tol size then
        let r := encodeRunF sz target tol fuel low (q - 1) best'
        (r.1, q :: r.2)
      else
        (some q, [q])
    else (best.map Prod.fst, [])

/-- `_encode_jpeg_target_bytes` entry point: `low, high = 70, 98`, no best-seen
probe yet.  Fuel 29 is the initial interval size `98 + 1 - 70`. -/
def encode_jpeg_target_bytes (sz : ℤ → ℕ) (target : ℕ) (tol : ℚ) :
    Option ℤ × List ℤ :=
  encodeRunF sz target tol 29 70 98 none

theorem mem_of_getLast?_eq {α : Type} : ∀ {l : List α} {a : α},
    l.getLast? = some a → a ∈ l
  | [], _, h => by simp at h
  | [x], a, h => by
    simp [List.getLast?] at h
    simp [h]
  | x :: y :: l, a, h => by
    rw [List.getLast?_cons_cons] at h
    exact List.mem_cons_of_mem x (mem_of_getLast?_eq h)

/-- Every probed quality lies inside the current search interval. -/
theorem encodeRunF_probes_range (sz : ℤ → ℕ) (target : ℕ) (tol : ℚ) :
    ∀ (fuel : ℕ) (low high : ℤ) (best : Option (ℤ × ℕ)),
      ∀ p ∈ (encodeRunF sz target tol fuel low high best).2, low ≤ p ∧ p ≤ high := by
  intro fuel
  induction fuel with
  | zero => intro low high best p hp; simp [encodeRunF] at hp
  | succ fuel ih =>
    intro low high best p hp
    rw [encodeRunF] at hp
    by_cases hlh : low ≤ high
    · rw [if_pos hlh] at hp
      dsimp only at hp
      by_cases hb : belowBand target tol (sz ((low + high) / 2))
      · rw [if_pos hb] at hp
        rcases List.mem_cons.mp hp with rfl | hp'
        · omega
        · have := ih ((low + high) / 2 + 1) high _ p hp'
          omega
      · rw [if_neg hb] at hp
        by_cases ha : aboveBand target tol (sz ((low + high) / 2))
        · rw [if_pos ha] at hp
          rcases List.mem_cons.mp hp with rfl | hp'
          · omega
          · have := ih low ((low + high) / 2 - 1) _ p hp'
            omega
        · rw [if_neg ha] at hp
          rcases List.mem_cons.mp hp with rfl | hp'
          · omega
          · simp at hp'
    · rw [if_neg hlh] at hp
      simp at hp

/-- Binary search probes at most `n` levels when the interval size is at most
`2 ^ n - 1`. -/
theorem encodeRunF_length_le (sz : ℤ → ℕ) (target : ℕ) (tol : ℚ) :
    ∀ (n fuel : ℕ) (low high : ℤ) (best : Option (ℤ × ℕ)),
      high + 1 - low ≤ 2 ^ n - 1 →
      (encodeRunF sz target tol fuel low high best).2.length ≤ n := by
  intro n
  induction n with
  | zero =>
    intro fuel low high best hs
    have hlh : ¬ low ≤ high := by simp at hs; omega
    cases fuel with
    | zero => simp [encodeRunF]
    | succ fuel => rw [encodeRunF, if_neg hlh]; simp
  | succ n ih =>
    intro fuel low high best hs
    cases fuel with
    | zero => simp [encodeRunF]
    | succ fuel =>
      rw [encodeRunF]
      by_cases hlh : low ≤ high
      · rw [if_pos hlh]
        dsimp only
        have hpow : (2 : ℤ) ^ (n + 1) = 2 * 2 ^ n := by ring
        by_cases hb : belowBand target tol (sz ((low + high) / 2))
        · rw [if_pos hb]
          have := ih fuel ((low + high) / 2 + 1) high
            (match best with
             | none => some ((low + high) / 2, natGap (sz ((low + high) / 2)) target)
             | some (bq, bg) =>
               if natGap (sz ((low + high) / 2)) target < bg then
                 some ((low + high) / 2, natGap (sz ((low + high) / 2)) target)
               else some (bq, bg)) (by omega)
          simpa using Nat.succ_le_succ this
        · rw [if_neg hb]
          by_cases ha : aboveBand target tol (sz ((low + high) / 2))
          · rw [if_pos ha]
            have := ih fuel low ((low + high) / 2 - 1)
              (match best with
               | none => some ((low + high) / 2, natGap (sz ((low + high) / 2)) target)
               | some (bq, bg) =>
                 if natGap (sz ((low + high) / 2)) target < bg then
                   some ((low + high) / 2, natGap (sz ((low + high) / 2)) target)
                 else some (bq, bg)) (by omega)
            simpa using Nat.succ_le_succ this
          · rw [if_neg ha]
            simp
      · rw [if_neg hlh]
        simp

/-- With fuel available and a non-empty interval the loop performs at least one
probe. -/
theorem encodeRunF_probes_ne_nil (sz : ℤ → ℕ) (target : ℕ) (tol : ℚ)
    (fuel : ℕ) (low high : ℤ) (best : Option (ℤ × ℕ))
    (hf : 1 ≤ fuel) (hlh : low ≤ high) :
    (encodeRunF sz target tol fuel low high best).2 ≠ [] := by
  cases fuel with
  | zero => omega
  | succ fuel =>
    rw [encodeRunF, if_pos hlh]
    dsimp only
    by_cases hb : belowBand target tol (sz ((low + high) / 2))
    · rw [if_pos hb]; simp
    · rw [if_neg hb]
      by_cases ha : aboveBand target tol (sz ((low + high) / 2))
      · rw [if_pos ha]; simp
      · rw [if_neg ha]; simp

/-- Terminal step of the search: no probe is made, the best-seen probe (if any)
is returned.  `H` is the (ghost) list of previously probed qualities. -/
theorem encodeRun_terminal (sz : ℤ → ℕ) (target : ℕ) (tol : ℚ)
    (best : Option (ℤ × ℕ)) (H : List ℤ)
    (hnone : best = none → H = [])
    (hsome : ∀ bq bg, best = some (bq, bg) → bq ∈ H ∧ bg = natGap (sz bq) target ∧
      ∀ p ∈ H, bg ≤ natGap (sz p) target) :
    ((∃ p ∈ ([] : List ℤ), inTolerance target tol (sz p)) →
      ∃ q, best.map Prod.fst = some q ∧ inTolerance target tol (sz q) ∧
        ([] : List ℤ).getLast? = some q) ∧
    ((∀ p ∈ ([] : List ℤ), ¬ inTolerance target tol (sz p)) →
      (H = [] ∧ ([] : List ℤ) = [] ∧ best.map Prod.fst = none) ∨
      (∃ q, best.map Prod.fst = some q ∧ (q ∈ H ∨ q ∈ ([] : List ℤ)) ∧
        ∀ p, (p ∈ H ∨ p ∈ ([] : List ℤ)) →
          natGap (sz q) target ≤ natGap (sz p) target)) := by
  constructor
  · rintro ⟨p, hp, -⟩
    simp at hp
  · intro _
    cases best with
    | none => exact Or.inl ⟨hnone rfl, rfl, rfl⟩
    | some b =>
      obtain ⟨bq, bg⟩ := b
      obtain ⟨hbq, hbg, hmin⟩ := hsome bq bg rfl
      refine Or.inr ⟨bq, rfl, Or.inl hbq, ?_⟩
      rintro p (hp | hp)
      · exact hbg ▸ hmin p hp
      · simp at hp

/-- Lifting the recursive call's conclusions over one out-of-tolerance probe
`Q`. `r` is the value of the recursive call, whose ghost history is `Q :: H`. -/
theorem encodeRun_step (sz : ℤ → ℕ) (target : ℕ) (tol : ℚ)
    (Q : ℤ) (H : List ℤ) (r : Option ℤ × List ℤ)
    (hQ : ¬ inTolerance target tol (sz Q))
    (ih1 : (∃ p ∈ r.2, inTolerance target tol (sz p)) →
      ∃ q, r.1 = some q ∧ inTolerance target tol (sz q) ∧ r.2.getLast? = some q)
    (ih2 : (∀ p ∈ r.2, ¬ inTolerance target tol (sz p)) →
      (Q :: H = [] ∧ r.2 = [] ∧ r.1 = none) ∨
      (∃ q, r.1 = some q ∧ (q ∈ Q :: H ∨ q ∈ r.2) ∧
        ∀ p, (p ∈ Q :: H ∨ p ∈ r.2) → natGap (sz q) target ≤ natGap (sz p) target)) :
    ((∃ p ∈ Q :: r.2, inTolerance target tol (sz p)) →
      ∃ q, r.1 = some q ∧ inTolerance target tol (sz q) ∧
        (Q :: r.2).getLast? = some q) ∧
    ((∀ p ∈ Q :: r.2, ¬ inTolerance target tol (sz p)) →
      (H = [] ∧ Q :: r.2 = [] ∧ r.1 = none) ∨
      (∃ q, r.1 = some q ∧ (q ∈ H ∨ q ∈ Q :: r.2) ∧
        ∀ p, (p ∈ H ∨ p ∈ Q :: r.2) →
          natGap (sz q) target ≤ natGap (sz p) target)) := by
  constructor
  · rintro ⟨p, hp, htol⟩
    rcases List.mem_cons.mp hp with rfl | hp'
    · exact absurd htol hQ
    · obtain ⟨q, h1, h2, h3⟩ := ih1 ⟨p, hp', htol⟩
      refine ⟨q, h1, h2, ?_⟩
      cases hr2 : r.2 with
      | nil => rw [hr2] at hp'; simp at hp'
      | cons x xs => rw [hr2] at h3; rw [List.getLast?_cons_cons, h3]
  · intro hall
    have hallr : ∀ p ∈ r.2, ¬ inTolerance target tol (sz p) :=
      fun p hp => hall p (List.mem_cons_of_mem Q hp)
    rcases ih2 hallr with ⟨habs, -, -⟩ | ⟨q, h1, hmem, hmin⟩
    · exact absurd habs (List.cons_ne_nil Q H)
    · refine Or.inr ⟨q, h1, ?_, ?_⟩
      · rcases hmem with hm | hm
        · rcases List.mem_cons.mp hm with rfl | hm'
          · exact Or.inr (List.mem_cons_self q r.2)
          · exact Or.inl hm'
        · exact Or.inr (List.mem_cons_of_mem Q hm)
      · rintro p (hp | hp)
        · exact hmin p (Or.inl (List.mem_cons_of_mem Q hp))
        · rcases List.mem_cons.mp hp with rfl | hp'
          · exact hmin p (Or.inl (List.mem_cons_self p H))
          · exact hmin p (Or.inr hp')

/-- Master invariant of the search loop.  Given that the best-seen probe is the
gap-minimum over the probe history `H`, the loop either returns the first probe
that lands in the tolerance band (that probe being the final one), or — when
the range is exhausted with every probe out of band — returns the probe with
minimum `abs(size - target)` over all probes made, old and new. -/
theorem encodeRunF_spec (sz : ℤ → ℕ) (target : ℕ) (tol : ℚ) :
    ∀ (fuel : ℕ) (low high : ℤ) (best : Option (ℤ × ℕ)) (H : List ℤ),
      (high + 1 - low).toNat ≤ fuel →
      (best = none → H = []) →
      (∀ bq bg, best = some (bq, bg) → bq ∈ H ∧ bg = natGap (sz bq) target ∧
        ∀ p ∈ H, bg ≤ natGap (sz p) target) →
      ((∃ p ∈ (encodeRunF sz target tol fuel low high best).2,
          inTolerance target tol (sz p)) →
        ∃ q, (encodeRunF sz target tol fuel low high best).1 = some q ∧
          inTolerance target tol (sz q) ∧
          (encodeRunF sz target tol fuel low high best).2.getLast? = some q) ∧
      ((∀ p ∈ (encodeRunF sz target tol fuel low high best).2,
          ¬ inTolerance target tol (sz p)) →
        (H = [] ∧ (encodeRunF sz target tol fuel low high best).2 = [] ∧
          (encodeRunF sz target tol fuel low high best).1 = none) ∨
        (∃ q, (encodeRunF sz target tol fuel low high best).1 = some q ∧
          (q ∈ H ∨ q ∈ (encodeRunF sz target tol fuel low high best).2) ∧
          ∀ p, (p ∈ H ∨ p ∈ (encodeRunF sz target tol fuel low high best).2) →
            natGap (sz q) target ≤ natGap (sz p) target)) := by
  intro fuel
  induction fuel with
  | zero =>
    intro low high best H hf hnone hsome
    exact encodeRun_terminal sz target tol best H hnone hsome
  | succ fuel ih =>
    intro low high best H hf hnone hsome
    rw [encodeRunF]
    by_cases hlh : low ≤ high
    · rw [if_pos hlh]
      dsimp only
      set Q : ℤ := (low + high) / 2 with hQdef
      have hQlo : low ≤ Q := by omega
      have hQhi : Q ≤ high := by omega
      by_cases hb : belowBand target tol (sz Q)
      · rw [if_pos hb]
        have hQ : ¬ inTolerance target tol (sz Q) := fun h => h.1 hb
        cases best with
        | none =>
          have hH : H = [] := hnone rfl
          subst hH
          dsimp only
          have := ih (Q + 1) high (some (Q, natGap (sz Q) target)) [Q]
            (by omega)
            (by intro h; exact absurd h (by simp))
            (by
              rintro bq' bg' hbb
              injection hbb with h
              injection h with h1 h2
              subst h1; subst h2
              refine ⟨List.mem_singleton_self Q, rfl, ?_⟩
              intro p hp
              have hpQ := List.mem_singleton.mp hp
              subst hpQ
              exact le_refl _)
          exact encodeRun_step sz target tol Q [] _ hQ this.1 this.2
        | some b =>
          obtain ⟨bq, bg⟩ := b
          obtain ⟨hbq, hbg, hmin⟩ := hsome bq bg rfl
          dsimp only
          by_cases hgap : natGap (sz Q) target < bg
          · rw [if_pos hgap]
            have := ih (Q + 1) high (some (Q, natGap (sz Q) target)) (Q :: H)
              (by omega)
              (by intro h; exact absurd h (by simp))
              (by
                rintro bq' bg' hbb
                injection hbb with h
                injection h with h1 h2
                subst h1; subst h2
                refine ⟨List.mem_cons_self Q H, rfl, ?_⟩
                intro p hp
                rcases List.mem_cons.mp hp with rfl | hp'
                · exact le_refl _
                · exact le_of_lt (lt_of_lt_of_le hgap (hbg ▸ hmin p hp')))
            exact encodeRun_step sz target tol Q H _ hQ this.1 this.2
          · rw [if_neg hgap]
            have := ih (Q + 1) high (some (bq, bg)) (Q :: H)
              (by omega)
              (by intro h; exact absurd h (by simp))
              (by
                rintro bq' bg' hbb
                injection hbb with h
                injection h with h1 h2
                subst h1; subst h2
                refine ⟨List.mem_cons_of_mem Q hbq, hbg, ?_⟩
                intro p hp
                rcases List.mem_cons.mp hp with rfl | hp'
                · exact le_of_not_lt hgap
                · exact hmin p hp')
            exact encodeRun_step sz target tol Q H _ hQ this.1 this.2
      · rw [if_neg hb]
        by_cases ha : aboveBand target tol (sz Q)
        · rw [if_pos ha]
          have hQ : ¬ inTolerance target tol (sz Q) := fun h => h.2 ha
          cases best with
          | none =>
            have hH : H = [] := hnone rfl
            subst hH
            dsimp only
            have := ih low (Q - 1) (some (Q, natGap (sz Q) target)) [Q]
              (by omega)
              (by intro h; exact absurd h (by simp))
              (by
                rintro bq' bg' hbb
                injection hbb with h
                injection h with h1 h2
                subst h1; subst h2
                refine ⟨List.mem_singleton_self Q, rfl, ?_⟩
                intro p hp
                have hpQ := List.mem_singleton.mp hp
                subst hpQ
                exact le_refl _)
            exact encodeRun_step sz target tol Q [] _ hQ this.1 this.2
          | some b =>
            obtain ⟨bq, bg⟩ := b
            obtain ⟨hbq, hbg, hmin⟩ := hsome bq bg rfl
            dsimp only
            by_cases hgap : natGap (sz Q) target < bg
            · rw [if_pos hgap]
              have := ih low (Q - 1) (some (Q, natGap (sz Q) target)) (Q :: H)
                (by omega)
                (by intro h; exact absurd h (by simp))
                (by
                  rintro bq' bg' hbb
                  injection hbb with h
                  injection h with h1 h2
                  subst h1; subst h2
                  refine ⟨List.mem_cons_self Q H, rfl, ?_⟩
                  intro p hp
                  rcases List.mem_cons.mp hp with rfl | hp'
                  · exact le_refl _
                  · exact le_of_lt (lt_of_lt_of_le hgap (hbg ▸ hmin p hp')))
              exact encodeRun_step sz target tol Q H _ hQ this.1 this.2
            · rw [if_neg hgap]
              have := ih low (Q - 1) (some (bq, bg)) (Q :: H)
                (by omega)
                (by intro h; exact absurd h (by simp))
                (by
                  rintro bq' bg' hbb
                  injection hbb with h
                  injection h with h1 h2
                  subst h1; subst h2
                  refine ⟨List.mem_cons_of_mem Q hbq, hbg, ?_⟩
                  intro p hp
                  rcases List.mem_cons.mp hp with rfl | hp'
                  · exact le_of_not_lt hgap
                  · exact hmin p hp')
              exact encodeRun_step sz target tol Q H _ hQ this.1 this.2
        · rw [if_neg ha]
          have htol : inTolerance target tol (sz Q) := ⟨hb, ha⟩
          constructor
          · intro _
            exact ⟨Q, rfl, htol, rfl⟩
          · intro hall
            exact ((hall Q (List.mem_singleton_self Q)) htol).elim
    · rw [if_neg hlh]
      exact encodeRun_terminal sz target tol best H hnone hsome

/-- The entry point's best-seen hypotheses: no probe has happened yet. -/
theorem encode_entry_spec (sz : ℤ → ℕ) (target : ℕ) (tol : ℚ) :
    ((∃ p ∈ (encode_jpeg_target_bytes sz target tol).2,
        inTolerance target tol (sz p)) →
      ∃ q, (encode_jpeg_target_bytes sz target tol).1 = some q ∧
        inTolerance target tol (sz q) ∧
        (encode_jpeg_target_bytes sz target tol).2.getLast? = some q) ∧
    ((∀ p ∈ (encode_jpeg_target_bytes sz target tol).2,
        ¬ inTolerance target tol (sz p)) →
      (([] : List ℤ) = [] ∧ (encode_jpeg_target_bytes sz target tol).2 = [] ∧
        (encode_jpeg_target_bytes sz target tol).1 = none) ∨
      (∃ q, (encode_jpeg_target_bytes sz target tol).1 = some q ∧
        (q ∈ ([] : List ℤ) ∨ q ∈ (encode_jpeg_target_bytes sz target tol).2) ∧
        ∀ p, (p ∈ ([] : List ℤ) ∨ p ∈ (encode_jpeg_target_bytes sz target tol).2) →
          natGap (sz q) target ≤ natGap (sz p) target)) :=
  encodeRunF_spec sz target tol 29 70 98 none []
    (by norm_num) (fun _ => rfl) (by rintro bq bg h; exact absurd h (by simp))

/-- The entry point always makes at least one probe. -/
theorem encode_probes_ne_nil (sz : ℤ → ℕ) (target : ℕ) (tol : ℚ) :
    (encode_jpeg_target_bytes sz target tol).2 ≠ [] :=
  encodeRunF_probes_ne_nil sz target tol 29 70 98 none (by norm_num) (by norm_num)

/-- **C2**: if some probe's encoded size lands inside the relative tolerance
band around `target`, the encoder returns that probe's encoding and quality
immediately (the in-band probe is the final probe made); otherwise, when the
search range is exhausted with every probe out of band, the returned quality is
a probed one whose encoded size has minimum `abs(size - target)` over all
probed quality levels — not merely the last probe. -/
theorem encode_target_band_or_argmin (sz : ℤ → ℕ) (target : ℕ) (tol : ℚ) :
    ((∃ p ∈ (encode_jpeg_target_bytes sz target tol).2,
        inTolerance target tol (sz p)) →
      ∃ q, (encode_jpeg_target_bytes sz target tol).1 = some q ∧
        inTolerance target tol (sz q) ∧
        (encode_jpeg_target_bytes sz target tol).2.getLast? = some q) ∧
    ((∀ p ∈ (encode_jpeg_target_bytes sz target tol).2,
        ¬ inTolerance target tol (sz p)) →
      ∃ q, (encode_jpeg_target_bytes sz target tol).1 = some q ∧
        q ∈ (encode_jpeg_target_bytes sz target tol).2 ∧
        ∀ p ∈ (encode_jpeg_target_bytes sz target tol).2,
          natGap (sz q) target ≤ natGap (sz p) target) := by
  obtain ⟨h1, h2⟩ := encode_entry_spec sz target tol
  refine ⟨h1, ?_⟩
  intro hall
  rcases h2 hall with ⟨-, hnil, -⟩ | ⟨q, hq, hmem, hmin⟩
  · exact absurd hnil (encode_probes_ne_nil sz target tol)
  · rcases hmem with hm | hm
    · simp at hm
    · exact ⟨q, hq, hm, fun p hp => hmin p (Or.inr hp)⟩

/-- Witness for `encode_target_band_or_argmin`: a constant encoded size of 5
bytes never reaches target 1000 within a 12% band, so every probe is out of
band, the search exhausts, and a closest-seen probe is returned. -/
theorem encode_target_band_or_argmin_witness :
    ∃ q, (encode_jpeg_target_bytes (fun _ => 5) 1000 (12 / 100)).1 = some q ∧
      q ∈ (encode_jpeg_target_bytes (fun _ => 5) 1000 (12 / 100)).2 ∧
      ∀ p ∈ (encode_jpeg_target_bytes (fun _ => 5) 1000 (12 / 100)).2,
        natGap ((fun _ => 5) q) 1000 ≤ natGap ((fun _ => 5) p) 1000 :=
  (encode_target_band_or_argmin (fun _ => 5) 1000 (12 / 100)).2
    (by
      intro p _
      intro htol
      exact absurd (by norm_num [belowBand] : belowBand 1000 (12 / 100) 5) htol.1)

/-- **C3**: the binary search terminates (the model is total and its fuel
branch is never reached from the entry state), performs at most 5 probes, every
probed quality lies in `[70, 98]`, and the returned quality is one of the
probes, hence also in `[70, 98]`. -/
theorem encode_target_probe_count_and_range (sz : ℤ → ℕ) (target : ℕ) (tol : ℚ) :
    (encode_jpeg_target_bytes sz target tol).2.length ≤ 5 ∧
    (∀ p ∈ (encode_jpeg_target_bytes sz target tol).2, 70 ≤ p ∧ p ≤ 98) ∧
    ∃ q, (encode_jpeg_target_bytes sz target tol).1 = some q ∧ 70 ≤ q ∧ q ≤ 98 := by
  have hrange := encodeRunF_probes_range sz target tol 29 70 98 none
  refine ⟨encodeRunF_length_le sz target tol 5 29 70 98 none (by norm_num), hrange, ?_⟩
  obtain ⟨h1, h2⟩ := encode_entry_spec sz target tol
  by_cases hex : ∃ p ∈ (encode_jpeg_target_bytes sz target tol).2,
      inTolerance target tol (sz p)
  · obtain ⟨q, hq, -, hlast⟩ := h1 hex
    have hm := mem_of_getLast?_eq hlast
    exact ⟨q, hq, (hrange q hm).1, (hrange q hm).2⟩
  · push_neg at hex
    rcases h2 hex with ⟨-, hnil, -⟩ | ⟨q, hq, hmem, -⟩
    · exact absurd hnil (encode_probes_ne_nil sz target tol)
    · rcases hmem with hm | hm
      · simp at hm
      · exact ⟨q, hq, (hrange q hm).1, (hrange q hm).2⟩

/-- **C10**: the `RuntimeError("Failed to encode JPEG.")` branch is
unreachable: the initial range `[70, 98]` is non-empty, so at least one probe
happens, the best-seen encoding is set, and the result is always a returned
quality, never the error outcome. -/
theorem encode_target_error_unreachable (sz : ℤ → ℕ) (target : ℕ) (tol : ℚ) :
    ∃ q, (encode_jpeg_target_bytes sz target tol).1 = some q := by
  obtain ⟨h1, h2⟩ := encode_entry_spec sz target tol
  by_cases hex : ∃ p ∈ (encode_jpeg_target_bytes sz target tol).2,
      inTolerance target tol (sz p)
  · obtain ⟨q, hq, -, -⟩ := h1 hex
    exact ⟨q, hq⟩
  · push_neg at hex
    rcases h2 hex with ⟨-, hnil, -⟩ | ⟨q, hq, -, -⟩
    · exact absurd hnil (encode_probes_ne_nil sz target tol)
    · exact ⟨q, hq⟩

/-! ### Per-item processor (src/upscale/processing.py, lines 122-263)

`process_image` is modelled after its load/EXIF phase: `load` is `none` when
`_load_image`/EXIF handling raises (the `failed_invalid` branch) and
`some (src_w, src_h)` otherwise.  Each pass of the retry loop observes the
environment only through the upscaled dimensions, the encoded bytes and
quality, or a raised `MemoryError`; `env k` records the behaviour of pass `k`
(the scale for pass `k` is determined — `scale * 1.15 ^ k` — so indexing by
pass number loses nothing).  Encoded byte strings are `List ℕ`. -/

/-- Python `round(x, 2)`: round to 2 decimal places, ties to even. -/
def pyRound2 (x : ℚ) : ℚ :=
  let y := x * 100
  let f : ℤ := ⌊y⌋
  let g : ℤ :=
    if y - (f : ℚ) < 1 / 2 then f
    else if (1 / 2 : ℚ) < y - (f : ℚ) then f + 1
    else if f % 2 = 0 then f else f + 1
  (g : ℚ) / 100

/-- `round(len(data) / (1024 * 1024), 2)` (processing.py lines 195, 247). -/
def sizeMb (len : ℕ) : ℚ := pyRound2 ((len : ℚ) / (1024 * 1024))

/-- The best-so-far result: `best_bytes`, `best_quality`, `best_w`, `best_h`
(processing.py lines 165-168, 189-192).  The four are always assigned
together, so one optional record models them. -/
structure BestPass where
  w : ℕ
  h : ℕ
  data : List ℕ
  q : ℤ
deriving DecidableEq

/-- Observable behaviour of one pass of the retry loop: the upscale call
raises `MemoryError`; or it returns a `w × h` image and the encoder raises
`MemoryError`; or upscale and encode both complete. -/
inductive PassBehavior
  | upMemErr
  | encMemErr (w h : ℕ)
  | okPass (w h : ℕ) (data : List ℕ) (q : ℤ)

/-- How the `for _ in range(max_size_passes)` loop ends: the early `return`
with status `ok`; a caught `MemoryError`; or falling through to line 230 with
the best-so-far (and whether the pixel-limit `break` fired). -/
inductive LoopExit
  | okExit (w h : ℕ) (data : List ℕ) (q : ℤ)
  | memErr
  | fellThrough (best : Option BestPass) (pixelLimited : Bool)
deriving DecidableEq

/-- `True` exactly on the `ok` early-return exits. -/
def LoopExit.isOkExit : LoopExit → Bool
  | .okExit _ _ _ _ => true
  | _ => false

/-- The retry loop (processing.py lines 174-212): `n` passes remain, `i` is
the current pass index, `best` the best-so-far.  Each pass upscales, breaks on
`out_w * out_h > max_output_pixels`, encodes, unconditionally records the
best-so-far, and returns `ok` when `len(data) >= target_bytes`. -/
def runPasses (env : ℕ → PassBehavior) (maxPixels targetBytes : ℕ) :
    ℕ → ℕ → Option BestPass → LoopExit
  | 0, _, best => .fellThrough best false
  | n + 1, i, best =>
    match env i with
    | .upMemErr => .memErr
    | .encMemErr w h =>
      if maxPixels < w * h then .fellThrough best true else .memErr
    | .okPass w h data q =>
      if maxPixels < w * h then .fellThrough best true
      else if targetBytes ≤ data.length then .okExit w h data q
      else runPasses env maxPixels targetBytes n (i + 1) (some ⟨w, h, data, q⟩)

/-- Result of `process_image`: the report plus the returned output bytes. -/
structure ProcessResult where
  report : ProcessReport
  output_bytes : Option (List ℕ)

/-- Notes of the `target_not_met` report: the pixel-limit note (if the break
fired) joined with the fixed trailing note (processing.py lines 178, 248,
260). -/
def targetNotMetNotes (pixelLimited : Bool) : String :=
  String.intercalate " "
    ((if pixelLimited then ["Output exceeded max pixel limit."] else []) ++
      ["Upscaled and exported, but minimum target size was not reached."])

/-- `process_image` (processing.py lines 122-263) after the load phase is
abstracted into `load`.  The four exits of the retry loop map to the four
result constructions of the source. -/
def process_image (source_name output_name : String) (load : Option (ℕ × ℕ))
    (env : ℕ → PassBehavior) (maxPasses maxPixels targetBytes : ℕ) : ProcessResult :=
  match load with
  | none =>
    ⟨⟨source_name, output_name, "failed_invalid", none, none, none, none, none, none,
      "Invalid or unsupported image."⟩, none⟩
  | some (sw, sh) =>
    match runPasses env maxPixels targetBytes maxPasses 0 none with
    | .okExit w h data q =>
      ⟨⟨source_name, output_name, "ok", some sw, some sh, some w, some h, some q,
        some (sizeMb data.length), "OK"⟩, some data⟩
    | .memErr =>
      ⟨⟨source_name, output_name, "failed_processing", some sw, some sh, none, none,
        none, none, "Insufficient memory to process this file."⟩, none⟩
    | .fellThrough none _ =>
      ⟨⟨source_name, output_name, "failed_processing", some sw, some sh, none, none,
        none, none, "Processing failed."⟩, none⟩
    | .fellThrough (some b) pl =>
      ⟨⟨source_name, output_name, "target_not_met", some sw, some sh, some b.w,
        some b.h, some b.q, some (sizeMb b.data.length), targetNotMetNotes pl⟩,
        some b.data⟩

/-- A best-so-far carried out of the loop really came from a completed pass:
some executed pass upscaled within the pixel limit, encoded below target, and
its observation is exactly the recorded best. -/
theorem runPasses_fellThrough_some (env : ℕ → PassBehavior) (mpx tb : ℕ) :
    ∀ (n i : ℕ) (best0 : Option BestPass) (b : BestPass) (pl : Bool),
      runPasses env mpx tb n i best0 = .fellThrough (some b) pl →
      best0 = some b ∨
      ∃ k, env k = .okPass b.w b.h b.data b.q ∧ b.w * b.h ≤ mpx ∧
        b.data.length < tb := by
  intro n
  induction n with
  | zero =>
    intro i best0 b pl h
    rw [runPasses] at h
    injection h with h1 _
    exact Or.inl h1
  | succ n ih =>
    intro i best0 b pl h
    rw [runPasses] at h
    cases henv : env i with
    | upMemErr => rw [henv] at h; exact absurd h (by simp)
    | encMemErr w hh =>
      rw [henv] at h
      dsimp only at h
      by_cases hpx : mpx < w * hh
      · rw [if_pos hpx] at h
        injection h with h1 _
        exact Or.inl h1
      · rw [if_neg hpx] at h
        exact absurd h (by simp)
    | okPass w hh data q =>
      rw [henv] at h
      dsimp only at h
      by_cases hpx : mpx < w * hh
      · rw [if_pos hpx] at h
        injection h with h1 _
        exact Or.inl h1
      · rw [if_neg hpx] at h
        by_cases htb : tb ≤ data.length
        · rw [if_pos htb] at h
          exact absurd h (by simp)
        · rw [if_neg htb] at h
          rcases ih (i + 1) (some ⟨w, hh, data, q⟩) b pl h with hbest | hk
          · injection hbest with hb
            subst hb
            exact Or.inr ⟨i, henv, le_of_not_lt hpx, lt_of_not_le htb⟩
          · exact Or.inr hk

/-- **C4**: when the retry loop ends (normally, not by a caught exception)
without reaching status `ok`: if a best-so-far result exists, `process_image`
returns status `target_not_met` carrying that result's dimensions, quality,
size and bytes (and the best really came from a completed encoding pass); if
no pass completed at all, it returns `failed_processing` with no output bytes
and all output fields absent. -/
theorem process_image_loop_not_ok (sname oname : String) (env : ℕ → PassBehavior)
    (maxPasses maxPixels targetBytes sw sh : ℕ)
    (hok : (runPasses env maxPixels targetBytes maxPasses 0 none).isOkExit = false)
    (hmem : runPasses env maxPixels targetBytes maxPasses 0 none ≠ .memErr) :
    (∃ b pl, runPasses env maxPixels targetBytes maxPasses 0 none =
        .fellThrough (some b) pl ∧
      (process_image sname oname (some (sw, sh)) env maxPasses maxPixels
        targetBytes).report.status = "target_not_met" ∧
      (process_image sname oname (some (sw, sh)) env maxPasses maxPixels
        targetBytes).report.out_w = some b.w ∧
      (process_image sname oname (some (sw, sh)) env maxPasses maxPixels
        targetBytes).report.out_h = some b.h ∧
      (process_image sname oname (some (sw, sh)) env maxPasses maxPixels
        targetBytes).report.quality = some b.q ∧
      (process_image sname oname (some (sw, sh)) env maxPasses maxPixels
        targetBytes).report.size_mb = some (sizeMb b.data.length) ∧
      (process_image sname oname (some (sw, sh)) env maxPasses maxPixels
        targetBytes).output_bytes = some b.data ∧
      ∃ k, env k = .okPass b.w b.h b.data b.q ∧ b.w * b.h ≤ maxPixels ∧
        b.data.length < targetBytes) ∨
    (∃ pl, runPasses env maxPixels targetBytes maxPasses 0 none =
        .fellThrough none pl ∧
      (process_image sname oname (some (sw, sh)) env maxPasses maxPixels
        targetBytes).report.status = "failed_processing" ∧
      (process_image sname oname (some (sw, sh)) env maxPasses maxPixels
        targetBytes).output_bytes = none) := by
  cases hE : runPasses env maxPixels targetBytes maxPasses 0 none with
  | okExit w h data q =>
    rw [hE] at hok
    simp [LoopExit.isOkExit] at hok
  | memErr => exact absurd hE hmem
  | fellThrough best pl =>
    cases best with
    | none =>
      refine Or.inr ⟨pl, rfl, ?_, ?_⟩ <;> simp [process_image, hE]
    | some b =>
      rcases runPasses_fellThrough_some env maxPixels targetBytes maxPasses 0 none
        b pl hE with hbest | hk
      · exact absurd hbest (by simp)
      · refine Or.inl ⟨b, pl, rfl, ?_, ?_, ?_, ?_, ?_, ?_, hk⟩ <;>
          simp [process_image, hE]

/-- Witness for `process_image_loop_not_ok`: one pass completes an encoding of
2 bytes against a 10-byte target, then the pass budget is exhausted. -/
theorem process_image_loop_not_ok_witness :
    (∃ b pl, runPasses (fun _ => .okPass 2 2 [1, 2] 85) 100 10 1 0 none =
        .fellThrough (some b) pl ∧
      (process_image "s.jpg" "o.jpg" (some (7, 7)) (fun _ => .okPass 2 2 [1, 2] 85)
        1 100 10).report.status = "target_not_met" ∧
      (process_image "s.jpg" "o.jpg" (some (7, 7)) (fun _ => .okPass 2 2 [1, 2] 85)
        1 100 10).report.out_w = some b.w ∧
      (process_image "s.jpg" "o.jpg" (some (7, 7)) (fun _ => .okPass 2 2 [1, 2] 85)
        1 100 10).report.out_h = some b.h ∧
      (process_image "s.jpg" "o.jpg" (some (7, 7)) (fun _ => .okPass 2 2 [1, 2] 85)
        1 100 10).report.quality = some b.q ∧
      (process_image "s.jpg" "o.jpg" (some (7, 7)) (fun _ => .okPass 2 2 [1, 2] 85)
        1 100 10).report.size_mb = some (sizeMb b.data.length) ∧
      (process_image "s.jpg" "o.jpg" (some (7, 7)) (fun _ => .okPass 2 2 [1, 2] 85)
        1 100 10).output_bytes = some b.data ∧
      ∃ k, (fun _ => PassBehavior.okPass 2 2 [1, 2] 85 : ℕ → PassBehavior) k =
          .okPass b.w b.h b.data b.q ∧ b.w * b.h ≤ 100 ∧ b.data.length < 10) ∨
    (∃ pl, runPasses (fun _ => .okPass 2 2 [1, 2] 85) 100 10 1 0 none =
        .fellThrough none pl ∧
      (process_image "s.jpg" "o.jpg" (some (7, 7)) (fun _ => .okPass 2 2 [1, 2] 85)
        1 100 10).report.status = "failed_processing" ∧
      (process_image "s.jpg" "o.jpg" (some (7, 7)) (fun _ => .okPass 2 2 [1, 2] 85)
        1 100 10).output_bytes = none) :=
  process_image_loop_not_ok "s.jpg" "o.jpg" (fun _ => .okPass 2 2 [1, 2] 85)
    1 100 10 7 7 (by decide) (by decide)

/-- **C5**: status `ok` or `target_not_met` implies the output dimensions,
quality and size fields are all present and output bytes are returned; status
`failed_invalid` or `failed_processing` implies all four are absent and no
output bytes are returned. -/
theorem process_image_status_field_invariant (sname oname : String)
    (load : Option (ℕ × ℕ)) (env : ℕ → PassBehavior) (mp mpx tb : ℕ) :
    (((process_image sname oname load env mp mpx tb).report.status = "ok" ∨
      (process_image sname oname load env mp mpx tb).report.status = "target_not_met") →
      (process_image sname oname load env mp mpx tb).report.out_w.isSome = true ∧
      (process_image sname oname load env mp mpx tb).report.out_h.isSome = true ∧
      (process_image sname oname load env mp mpx tb).report.quality.isSome = true ∧
      (process_image sname oname load env mp mpx tb).report.size_mb.isSome = true ∧
      (process_image sname oname load env mp mpx tb).output_bytes.isSome = true) ∧
    (((process_image sname oname load env mp mpx tb).report.status = "failed_invalid" ∨
      (process_image sname oname load env mp mpx tb).report.status = "failed_processing") →
      (process_image sname oname load env mp mpx tb).report.out_w = none ∧
      (process_image sname oname load env mp mpx tb).report.out_h = none ∧
      (process_image sname oname load env mp mpx tb).report.quality = none ∧
      (process_image sname oname load env mp mpx tb).report.size_mb = none ∧
      (process_image sname oname load env mp mpx tb).output_bytes = none) := by
  cases load with
  | none =>
    constructor
    · intro hst
      have hstat : (process_image sname oname none env mp mpx tb).report.status =
          "failed_invalid" := rfl
      rw [hstat] at hst
      rcases hst with h | h <;> exact absurd h (by decide)
    · intro _
      exact ⟨rfl, rfl, rfl, rfl, rfl⟩
  | some p =>
    obtain ⟨sw, sh⟩ := p
    cases hE : runPasses env mpx tb mp 0 none with
    | okExit w h data q =>
      constructor
      · intro _
        refine ⟨?_, ?_, ?_, ?_, ?_⟩ <;> simp [process_image, hE]
      · intro hst
        rcases hst with h' | h' <;>
          (simp only [process_image, hE] at h'; exact absurd h' (by decide))
    | memErr =>
      constructor
      · intro hst
        rcases hst with h' | h' <;>
          (simp only [process_image, hE] at h'; exact absurd h' (by decide))
      · intro _
        refine ⟨?_, ?_, ?_, ?_, ?_⟩ <;> simp [process_image, hE]
    | fellThrough best pl =>
      cases best with
      | none =>
        constructor
        · intro hst
          rcases hst with h' | h' <;>
            (simp only [process_image, hE] at h'; exact absurd h' (by decide))
        · intro _
          refine ⟨?_, ?_, ?_, ?_, ?_⟩ <;> simp [process_image, hE]
      | some b =>
        constructor
        · intro _
          refine ⟨?_, ?_, ?_, ?_, ?_⟩ <;> simp [process_image, hE]
        · intro hst
          rcases hst with h' | h' <;>
            (simp only [process_image, hE] at h'; exact absurd h' (by decide))

/-- Witness for `process_image_status_field_invariant`: an invalid image
(`failed_invalid`) has all output fields absent. -/
theorem process_image_status_field_invariant_witness :
    (process_image "s.jpg" "o.jpg" none (fun _ => .upMemErr) 1 1 1).report.out_w = none ∧
    (process_image "s.jpg" "o.jpg" none (fun _ => .upMemErr) 1 1 1).report.out_h = none ∧
    (process_image "s.jpg" "o.jpg" none (fun _ => .upMemErr) 1 1 1).report.quality = none ∧
    (process_image "s.jpg" "o.jpg" none (fun _ => .upMemErr) 1 1 1).report.size_mb = none ∧
    (process_image "s.jpg" "o.jpg" none (fun _ => .upMemErr) 1 1 1).output_bytes = none :=
  (process_image_status_field_invariant "s.jpg" "o.jpg" none (fun _ => .upMemErr)
    1 1 1).2 (Or.inl rfl)

/-- **C7**: a `MemoryError` raised inside the upscale/encode loop is caught:
`process_image` returns status `failed_processing` with the source dimensions
still reported, every output field absent and no output bytes — the exception
does not propagate (the model is a total function whose `memErr` exit maps to
this result). -/
theorem process_image_memory_error (sname oname : String) (env : ℕ → PassBehavior)
    (mp mpx tb sw sh : ℕ)
    (hmem : runPasses env mpx tb mp 0 none = .memErr) :
    process_image sname oname (some (sw, sh)) env mp mpx tb =
      ⟨⟨sname, oname, "failed_processing", some sw, some sh, none, none, none, none,
        "Insufficient memory to process this file."⟩, none⟩ := by
  simp [process_image, hmem]

/-- Witness for `process_image_memory_error`: the first upscale raises. -/
theorem process_image_memory_error_witness :
    process_image "s.jpg" "o.jpg" (some (3, 4)) (fun _ => .upMemErr) 1 100 10 =
      ⟨⟨"s.jpg", "o.jpg", "failed_processing", some 3, some 4, none, none, none, none,
        "Insufficient memory to process this file."⟩, none⟩ :=
  process_image_memory_error "s.jpg" "o.jpg" (fun _ => .upMemErr) 1 100 10 3 4
    (by decide)

/-! ### Batch runner counters (src/app.py, `_run_job` lines 124-207)

Per item, `_run_job` either rejects an unsupported extension (counted
`skipped`) or classifies the `process_image` report status; either way it then
writes `processed = idx` and the four counters to the registry in one atomic
update.  An item is modelled as `none` (unsupported extension) or
`some status`.  The job's `total` is set by `JOB_STORE.create(total=len(files))`
(app.py line 273) *before* the submission loop builds `inputs`, and that loop
drops any part whose filename is empty (`if not f.filename: continue`,
app.py lines 279-281) — only `files[0].filename` is guarded (line 254) — so
`total` can exceed the number of inputs `_run_job` receives.
`str.startswith` is modelled as a character-list prefix test. -/

/-- Counter fields of one registry snapshot of the job. -/
structure JobCounters where
  processed : ℕ
  succeeded : ℕ
  failed : ℕ
  skipped : ℕ
  warnings : ℕ
  status : String
deriving DecidableEq

/-- One iteration of the per-item loop (app.py lines 144-195): bad extension
increments `skipped`; otherwise the report status is classified as in lines
179-186; both paths then update `processed := idx`. -/
def classifyStep (c : JobCounters) (item : Option String) (idx : ℕ) : JobCounters :=
  match item with
  | none => { c with skipped := c.skipped + 1, processed := idx }
  | some st =>
    if st = "ok" then { c with succeeded := c.succeeded + 1, processed := idx }
    else if st = "target_not_met" then
      { c with warnings := c.warnings + 1, processed := idx }
    else if "failed".data.isPrefixOf st.data then
      { c with failed := c.failed + 1, processed := idx }
    else { c with skipped := c.skipped + 1, processed := idx }

/-- The counter-bearing registry snapshots, one per item, in order. -/
def runJobAux (c : JobCounters) (idx : ℕ) : List (Option String) → List JobCounters
  | [] => []
  | it :: rest =>
    let c' := classifyStep c it idx
    c' :: runJobAux c' (idx + 1) rest

/-- Job state when the loop starts: all counters zero, status `processing`
(app.py lines 130, 140). -/
def initialCounters : JobCounters := ⟨0, 0, 0, 0, 0, "processing"⟩

/-- All per-item registry snapshots of one `_run_job` execution. -/
def runJobSnaps (items : List (Option String)) : List JobCounters :=
  runJobAux initialCounters 1 items

/-- The terminal registry update (app.py lines 200-207): sets status `done`,
leaving every counter at its last per-item value. -/
def runJobDone (items : List (Option String)) : JobCounters :=
  { (runJobSnaps items).getLastD initialCounters with status := "done" }

/-- Each loop iteration adds exactly one to exactly one of the four outcome
counters and stamps `processed` with the item index. -/
theorem classifyStep_effect (c : JobCounters) (it : Option String) (idx : ℕ) :
    (classifyStep c it idx).succeeded + (classifyStep c it idx).failed +
        (classifyStep c it idx).skipped + (classifyStep c it idx).warnings =
      c.succeeded + c.failed + c.skipped + c.warnings + 1 ∧
    (classifyStep c it idx).processed = idx := by
  cases it with
  | none => refine ⟨?_, rfl⟩; simp [classifyStep]; omega
  | some st =>
    simp only [classifyStep]
    split_ifs <;> exact ⟨by simp; omega, rfl⟩

/-- Invariant carried along the loop: starting from counters whose outcome sum
equals `processed` and whose next index is `processed + 1`, every later
snapshot keeps the sum equation, `processed` never exceeds the final count,
and the last snapshot has processed everything. -/
theorem runJobAux_invariant :
    ∀ (items : List (Option String)) (c : JobCounters) (idx : ℕ),
      c.succeeded + c.failed + c.skipped + c.warnings = c.processed →
      c.processed + 1 = idx →
      (∀ s ∈ runJobAux c idx items,
        s.succeeded + s.failed + s.skipped + s.warnings = s.processed ∧
        s.processed ≤ c.processed + items.length) ∧
      ((runJobAux c idx items).getLastD c).processed = c.processed + items.length := by
  intro items
  induction items with
  | nil =>
    intro c idx hsum hidx
    exact ⟨by intro s hs; simp [runJobAux] at hs, by simp [runJobAux]⟩
  | cons it rest ih =>
    intro c idx hsum hidx
    obtain ⟨heff, hproc⟩ := classifyStep_effect c it idx
    have hsum' : (classifyStep c it idx).succeeded + (classifyStep c it idx).failed +
        (classifyStep c it idx).skipped + (classifyStep c it idx).warnings =
        (classifyStep c it idx).processed := by
      rw [heff, hsum, hproc]; omega
    have hidx' : (classifyStep c it idx).processed + 1 = idx + 1 := by rw [hproc]
    obtain ⟨ihAll, ihLast⟩ := ih (classifyStep c it idx) (idx + 1) hsum' hidx'
    constructor
    · intro s hs
      rw [runJobAux] at hs
      rcases List.mem_cons.mp hs with rfl | hs'
      · exact ⟨hsum', by rw [hproc]; simp; omega⟩
      · obtain ⟨h1, h2⟩ := ihAll s hs'
        refine ⟨h1, ?_⟩
        rw [hproc] at h2
        simp only [List.length_cons]
        omega
    · rw [runJobAux]
      simp only [List.getLastD_cons]
      rw [ihLast, hproc, List.length_cons]
      omega

/-- Counter invariant of `_run_job` over the inputs it actually receives:
after every per-item registry update,
`succeeded + failed + skipped + warnings = processed` and `processed` never
exceeds the number of inputs; the terminal update sets status `done` with
`processed` equal to the number of inputs.  (Whether that number equals the
job's `total` is the caller's wiring — see the mismatch theorem below.) -/
theorem run_job_counter_invariant (items : List (Option String)) :
    (∀ s ∈ runJobSnaps items,
      s.succeeded + s.failed + s.skipped + s.warnings = s.processed ∧
      s.processed ≤ items.length) ∧
    (runJobDone items).status = "done" ∧
    (runJobDone items).processed = items.length := by
  obtain ⟨hAll, hLast⟩ := runJobAux_invariant items initialCounters 1 rfl rfl
  refine ⟨fun s hs => ?_, rfl, ?_⟩
  · simpa [initialCounters] using hAll s hs
  · show ((runJobSnaps items).getLastD initialCounters).processed = items.length
    simpa [initialCounters, runJobSnaps] using hLast

/-- Witness for `run_job_counter_invariant`: the snapshot after the first item
(`ok`) of a three-item batch. -/
theorem run_job_counter_invariant_witness :
    (⟨1, 1, 0, 0, 0, "processing"⟩ : JobCounters).succeeded +
        (⟨1, 1, 0, 0, 0, "processing"⟩ : JobCounters).failed +
        (⟨1, 1, 0, 0, 0, "processing"⟩ : JobCounters).skipped +
        (⟨1, 1, 0, 0, 0, "processing"⟩ : JobCounters).warnings =
      (⟨1, 1, 0, 0, 0, "processing"⟩ : JobCounters).processed ∧
    (⟨1, 1, 0, 0, 0, "processing"⟩ : JobCounters).processed ≤
      ([some "ok", none, some "failed_invalid"] : List (Option String)).length :=
  (run_job_counter_invariant [some "ok", none, some "failed_invalid"]).1
    ⟨1, 1, 0, 0, 0, "processing"⟩ (by decide)

/-- The submission handler's input-building loop (app.py lines 278-288): each
uploaded file is a filename paired with the item outcome its input would
produce in `_run_job`; parts with an empty filename are silently skipped
(`if not f.filename: continue`), while `total` was already fixed to
`len(files)` at `JOB_STORE.create` (line 273). -/
def buildInputs (files : List (String × Option String)) : List (Option String) :=
  files.filterMap (fun f => if f.1 = "" then none else some f.2)

/-- **C6** (failing-input evaluation): the claim's terminal clause
`processed == total` is false of the program.  Submitting
`[("a.jpg", ok), ("", ok)]` passes the guard (only `files[0].filename` is
checked), creates the job with `total = len(files) = 2`, but the empty-named
part is dropped from `inputs`, so `_run_job` reaches status `done` with
`processed = 1 < total = 2`. -/
theorem run_job_done_total_mismatch :
    buildInputs [("a.jpg", some "ok"), ("", some "ok")] = [some "ok"] ∧
    ([("a.jpg", some "ok"), ("", some "ok")] : List (String × Option String)).length
      = 2 ∧
    (runJobDone (buildInputs [("a.jpg", some "ok"), ("", some "ok")])).status
      = "done" ∧
    (runJobDone (buildInputs [("a.jpg", some "ok"), ("", some "ok")])).processed
      = 1 ∧
    (runJobDone (buildInputs [("a.jpg", some "ok"), ("", some "ok")])).processed ≠
      ([("a.jpg", some "ok"), ("", some "ok")] : List (String × Option String)).length := by
  refine ⟨?_, ?_, ?_, ?_, ?_⟩ <;> decide

/-! ### Unique output naming (src/app.py, `_unique_output_name` lines 54-65)

The Python loop probes `f"{root}_{counter}{ext}"` for `counter = 2, 3, …`.
Decimal formatting of the counter is embedded as `natStr`; `os.path.splitext`
as `splitext`.  The used-name set is modelled as a list (membership is all the
code uses; `add` is cons).  The unbounded `while True` is modelled with fuel
`len(used) + 1`, which the pigeonhole argument below shows always suffices, so
the `none` (fuel exhausted) outcome is unreachable. -/

/-- Decimal digits of `n`, most significant first (empty for `n = 0`);
fuel-based, `fuel ≥ n` suffices. -/
def decDigits : ℕ → ℕ → List Char
  | 0, _ => []
  | fuel + 1, n =>
    if n = 0 then [] else decDigits fuel (n / 10) ++ [Nat.digitChar (n % 10)]

/-- Python decimal formatting `f"{n}"` of a non-negative int. -/
def natStr (n : ℕ) : String := if n = 0 then "0" else ⟨decDigits n n⟩

/-- Reading a digit string back as a number. -/
def rbVal (cs : List Char) : ℕ :=
  cs.foldl (fun a c => a * 10 + (c.toNat - '0'.toNat)) 0

theorem digitChar_toNat (d : ℕ) (h : d < 10) :
    (Nat.digitChar d).toNat - '0'.toNat = d := by
  interval_cases d <;> decide

theorem rbVal_append_digit (l : List Char) (c : Char) :
    rbVal (l ++ [c]) = rbVal l * 10 + (c.toNat - '0'.toNat) := by
  simp [rbVal, List.foldl_append]

theorem rbVal_decDigits : ∀ (n fuel : ℕ), n ≤ fuel → rbVal (decDigits fuel n) = n := by
  intro n
  induction n using Nat.strongRecOn with
  | _ n ih =>
    intro fuel hle
    cases fuel with
    | zero =>
      have : n = 0 := by omega
      subst this
      rfl
    | succ fuel =>
      rw [decDigits]
      by_cases hn : n = 0
      · subst hn; rfl
      · rw [if_neg hn, rbVal_append_digit]
        have hd : n / 10 < n := Nat.div_lt_self (by omega) (by omega)
        rw [ih (n / 10) hd fuel (by omega)]
        rw [digitChar_toNat (n % 10) (Nat.mod_lt n (by omega))]
        omega

theorem rbVal_natStr (n : ℕ) : rbVal (natStr n).data = n := by
  by_cases hn : n = 0
  · subst hn; rfl
  · show rbVal (if n = 0 then "0" else ⟨decDigits n n⟩ : String).data = n
    rw [if_neg hn]
    exact rbVal_decDigits n n (le_refl n)

theorem natStr_inj {a b : ℕ} (h : natStr a = natStr b) : a = b := by
  have hd : (natStr a).data = (natStr b).data := congrArg String.data h
  have := congrArg rbVal hd
  rwa [rbVal_natStr, rbVal_natStr] at this

/-- Index of the last occurrence of `c`, if any (Python `str.rfind`). -/
def lastIndexOf : List Char → Char → Option ℕ
  | [], _ => none
  | a :: rest, c =>
    match lastIndexOf rest c with
    | some i => some (i + 1)
    | none => if a = c then some 0 else none

/-- `os.path.splitext` (posix): split at the last dot, provided it comes after
the last path separator and the characters between separator and dot are not
all dots (so dotfiles like `.bashrc` keep an empty extension). -/
def splitext (s : String) : String × String :=
  let cs := s.data
  let sep : ℤ := match lastIndexOf cs '/' with
    | some i => (i : ℤ)
    | none => -1
  let dot : ℤ := match lastIndexOf cs '.' with
    | some i => (i : ℤ)
    | none => -1
  if sep < dot ∧
      ((cs.drop (sep + 1).toNat).take (dot - sep - 1).toNat).any
        (fun c => c != '.') = true then
    (⟨cs.take dot.toNat⟩, ⟨cs.drop dot.toNat⟩)
  else (s, "")

/-- `f"{root}_{counter}{ext}"` (app.py line 61). -/
def mkNumbered (root ext : String) (n : ℕ) : String :=
  root ++ "_" ++ natStr n ++ ext

theorem mkNumbered_inj (root ext : String) {a b : ℕ}
    (h : mkNumbered root ext a = mkNumbered root ext b) : a = b := by
  have hd := congrArg String.data h
  simp only [mkNumbered, String.data_append] at hd
  have h1 := List.append_cancel_right hd
  have h2 := List.append_cancel_left h1
  exact natStr_inj (by
    apply congrArg (fun l => (⟨l⟩ : String)) at h2
    simpa using h2)

/-- The `while True` probe loop (app.py lines 59-65), fuel-bounded. -/
def uniqueLoop (root ext : String) (used : List String) :
    ℕ → ℕ → Option (String × List String)
  | 0, _ => none
  | fuel + 1, counter =>
    let cand := mkNumbered root ext counter
    if cand ∈ used then uniqueLoop root ext used fuel (counter + 1)
    else some (cand, cand :: used)

/-- `_unique_output_name` (app.py lines 54-65): return and reserve the
candidate if unused, otherwise probe `stem_2.ext`, `stem_3.ext`, … -/
def unique_output_name (base : String) (used : List String) :
    Option (String × List String) :=
  if base ∈ used then
    uniqueLoop (splitext base).1 (splitext base).2 used (used.length + 1) 2
  else some (base, base :: used)

theorem uniqueLoop_finds (root ext : String) (used : List String) :
    ∀ (fuel counter : ℕ),
      (∃ k, k < fuel ∧ mkNumbered root ext (counter + k) ∉ used) →
      ∃ name N, uniqueLoop root ext used fuel counter = some (name, name :: used) ∧
        counter ≤ N ∧ name = mkNumbered root ext N ∧ name ∉ used ∧
        ∀ M, counter ≤ M → M < N → mkNumbered root ext M ∈ used := by
  intro fuel
  induction fuel with
  | zero =>
    rintro counter ⟨k, hk, -⟩
    omega
  | succ fuel ih =>
    rintro counter ⟨k, hk, hfree⟩
    rw [uniqueLoop]
    by_cases hc : mkNumbered root ext counter ∈ used
    · rw [if_pos hc]
      have hk0 : k ≠ 0 := by
        intro h0
        subst h0
        simp at hfree
        exact hfree hc
      obtain ⟨k', rfl⟩ : ∃ k', k = k' + 1 := ⟨k - 1, by omega⟩
      have hstep : counter + (k' + 1) = (counter + 1) + k' := by omega
      rw [hstep] at hfree
      obtain ⟨name, N, heq, hcN, hname, hnot, hall⟩ :=
        ih (counter + 1) ⟨k', by omega, hfree⟩
      refine ⟨name, N, heq, by omega, hname, hnot, ?_⟩
      intro M h1 h2
      by_cases hM : M = counter
      · subst hM; exact hc
      · exact hall M (by omega) h2
    · rw [if_neg hc]
      refine ⟨mkNumbered root ext counter, counter, rfl, le_refl _, rfl, hc, ?_⟩
      intro M h1 h2
      omega

/-- Pigeonhole: among `len(used) + 1` numbered candidates, at least one is not
in `used` (the candidates are pairwise distinct strings). -/
theorem exists_free_numbered (root ext : String) (used : List String) :
    ∃ k, k < used.length + 1 ∧ mkNumbered root ext (2 + k) ∉ used := by
  by_contra hall
  push_neg at hall
  have hsub : (Finset.range (used.length + 1)).image
      (fun k => mkNumbered root ext (2 + k)) ⊆ used.toFinset := by
    intro x hx
    obtain ⟨k, hk, rfl⟩ := Finset.mem_image.mp hx
    exact List.mem_toFinset.mpr (hall k (Finset.mem_range.mp hk))
  have hinj : Set.InjOn (fun k => mkNumbered root ext (2 + k))
      (Finset.range (used.length + 1)) := by
    intro a _ b _ hab
    have := mkNumbered_inj root ext hab
    omega
  have hcard := Finset.card_image_of_injOn hinj
  rw [Finset.card_range] at hcard
  have hle := Finset.card_le_card hsub
  rw [hcard] at hle
  have := used.toFinset_card_le
  omega

/-- **C8**: `_unique_output_name` returns the candidate itself when unused;
otherwise it returns `stem_N.ext` for the smallest `N ≥ 2` with `stem_N.ext`
unused; in both cases the returned name is reserved in the set.  In
particular, with `{"a.jpg"}` used and candidate `"a.jpg"` it returns
`"a_2.jpg"`, and with `"a_2.jpg"` also used it returns `"a_3.jpg"`. -/
theorem unique_output_name_spec :
    (∀ (base : String) (used : List String),
      (base ∉ used → unique_output_name base used = some (base, base :: used)) ∧
      (base ∈ used → ∃ name N,
        unique_output_name base used = some (name, name :: used) ∧
        2 ≤ N ∧ name = mkNumbered (splitext base).1 (splitext base).2 N ∧
        name ∉ used ∧
        ∀ M, 2 ≤ M → M < N →
          mkNumbered (splitext base).1 (splitext base).2 M ∈ used)) ∧
    unique_output_name "a.jpg" ["a.jpg"] = some ("a_2.jpg", ["a_2.jpg", "a.jpg"]) ∧
    unique_output_name "a.jpg" ["a_2.jpg", "a.jpg"] =
      some ("a_3.jpg", ["a_3.jpg", "a_2.jpg", "a.jpg"]) := by
  refine ⟨?_, by decide, by decide⟩
  intro base used
  constructor
  · intro hnot
    unfold unique_output_name
    rw [if_neg hnot]
  · intro hmem
    unfold unique_output_name
    rw [if_pos hmem]
    exact uniqueLoop_finds (splitext base).1 (splitext base).2 used
      (used.length + 1) 2 (exists_free_numbered (splitext base).1 (splitext base).2 used)

/-- Witness for `unique_output_name_spec`: the reserved-name clause at
candidate `"a.jpg"` with `{"a.jpg"}` used. -/
theorem unique_output_name_spec_witness :
    ∃ name N, unique_output_name "a.jpg" ["a.jpg"] = some (name, name :: ["a.jpg"]) ∧
      2 ≤ N ∧ name = mkNumbered (splitext "a.jpg").1 (splitext "a.jpg").2 N ∧
      name ∉ ["a.jpg"] ∧
      ∀ M, 2 ≤ M → M < N →
        mkNumbered (splitext "a.jpg").1 (splitext "a.jpg").2 M ∈ ["a.jpg"] :=
  (unique_output_name_spec.1 "a.jpg" ["a.jpg"]).2 (by decide)
